import Mathlib

/-!
Verification development for the repository mining and job orchestration
engine of `repo-analyzer-webui` (backend).  The Python sources
`backend/repo_analyzer.py` (standalone variant),
`backend/app/services/simplified_repo_analyzer.py` (backend variant) and
`backend/app/services/job_manager.py` are shallowly embedded below:
pure computations become Lean functions, external child-process calls are
modelled by passing their observable result (exit code, stdout lines) as an
explicit argument, and the filesystem walk is modelled by the list of
(directory, files) entries it yields.  Commit timestamps are integer epoch
seconds, as produced by the extraction format string.
-/

namespace RepoAnalyzer

/-! ### Python list/number primitives used by the sources -/

/-- Python `sorted` applied to a list of integer timestamps.  `sorted` is a
stable comparison sort; on integer keys its output is the unique `≤`-sorted
permutation, which insertion sort also computes. -/
def pySortInt (l : List Int) : List Int :=
  List.insertionSort (fun a b => a ≤ b) l

/-- Python `min` over a non-empty list of integers (`min(xs)`); the `[]`
case is a junk value, the sources only apply it to non-empty lists. -/
def pyMin : List Int → Int
  | [] => 0
  | x :: xs => xs.foldl min x

/-- Python `sum` over a list of naturals (`sum(gen)` accumulates left to
right from 0). -/
def pySumNat (l : List Nat) : Nat :=
  l.foldl (fun a b => a + b) 0

/-! ### Statistics engine: peak activity window
(`repo_analyzer.calculate_repo_summary`, lines 271-296) -/

/-- Time span of the 5-commit window starting at index `i` of the sorted
timestamp list: `window[-1] - window[0]` for `window = sorted[i:i+5]`. -/
def windowSpan (ts : List Int) (i : Nat) : Int :=
  ts.getD (i + 4) 0 - ts.getD i 0

/-- One iteration of the burst-detection loop: keep the stored window
unless the current window is strictly shorter (`if duration <
best_window_duration`); `none` models the initial
`best_window = None, best_window_duration = inf` state. -/
def peakStep (ts : List Int) (acc : Option (Nat × Int)) (i : Nat) : Option (Nat × Int) :=
  let d := windowSpan ts i
  match acc with
  | none => some (i, d)
  | some (j, bd) => if d < bd then some (i, d) else some (j, bd)

/-- The sliding-window scan `for i in range(len(sorted_commits) -
window_size + 1)` with `window_size = 5`, returning the retained window as
(start index into the sorted list, duration). -/
def peakScan (ts : List Int) : Option (Nat × Int) :=
  (List.range (ts.length - 5 + 1)).foldl (peakStep ts) none

/-- The peak-window part of `calculate_repo_summary`: commits are sorted
chronologically and scanned only when more than 5 commits exist
(`if len(commits) > 5`). -/
def peak_pace (ts : List Int) : Option (Nat × Int) :=
  if 5 < ts.length then peakScan (pySortInt ts) else none

/-! ### Statistics engine: inter-commit gaps
(`repo_analyzer.calculate_repo_summary`, lines 246-262) -/

/-- The consecutive differences `sorted[i+1] - sorted[i]` built by the list
comprehension over `range(len(sorted_commits) - 1)`. -/
def consecutiveGaps (ts : List Int) : List Int :=
  (ts.zip ts.tail).map (fun p => p.2 - p.1)

/-- The `min_time_between_commits` summary field: absent (`none`) when the
repository has no commits, `0` when it has exactly one, otherwise
`min(time_diffs) if time_diffs else 0` over the sorted-commit gaps. -/
def min_time_between_commits (ts : List Int) : Option Int :=
  if ts.length = 0 then none
  else if 1 < ts.length then
    let diffs := consecutiveGaps (pySortInt ts)
    some (if diffs.isEmpty then 0 else pyMin diffs)
  else some 0

/-! ### Statistics engine: cross-repository aggregation
(`repo_analyzer.calculate_aggregate_stats`, lines 307-366) -/

/-- The per-repository summary fields read by `calculate_aggregate_stats`.
`minTimeBetweenCommits = none` models the key being absent from the
summary dictionary (repository with no commits). -/
structure RepoSummaryStats where
  numCommits : Nat
  numBranches : Nat
  totalLines : Nat
  minTimeBetweenCommits : Option Int
deriving DecidableEq

/-- The aggregate fields computed by `calculate_aggregate_stats` that this
development reasons about (overall time span and merged word frequencies
are not needed by any claim).  `fastestPace = none` models
the initial infinite best pace never being beaten. -/
structure AggregateStats where
  totalCommits : Nat
  totalBranches : Nat
  totalLines : Nat
  reposAnalyzed : Nat
  fastestPace : Option Int
  fastestPaceRepo : Option String
deriving DecidableEq

/-- The fastest-pace selection loop: a repository participates only when
its summary has a `min_time_between_commits` key with a strictly positive
value, and it replaces the stored best only when strictly smaller
(`if summary[...] < best_pace`). -/
def fastestPaceFold (summaries : List (String × RepoSummaryStats)) :
    Option Int × Option String :=
  summaries.foldl (fun acc entry =>
    match entry.2.minTimeBetweenCommits with
    | some m =>
      if 0 < m then
        match acc.1 with
        | none => (some m, some entry.1)
        | some b => if m < b then (some m, some entry.1) else acc
      else acc
    | none => acc) (none, none)

/-- Embedding of `calculate_aggregate_stats` over the summary mapping (a Python dict in
insertion order, modelled as an association list). -/
def calculate_aggregate_stats (summaries : List (String × RepoSummaryStats)) :
    AggregateStats :=
  let fp := fastestPaceFold summaries
  { totalCommits := pySumNat (summaries.map (fun p => p.2.numCommits))
    totalBranches := pySumNat (summaries.map (fun p => p.2.numBranches))
    totalLines := pySumNat (summaries.map (fun p => p.2.totalLines))
    reposAnalyzed := summaries.length
    fastestPace := fp.1
    fastestPaceRepo := fp.2 }

/-- The sub-sequence of repositories that the fastest-pace loop actually
considers: those with a present, strictly positive minimum gap. -/
def positivePaces (summaries : List (String × RepoSummaryStats)) :
    List (String × Int) :=
  summaries.filterMap (fun p =>
    match p.2.minTimeBetweenCommits with
    | some m => if 0 < m then some (p.1, m) else none
    | none => none)

/-- One step of the fastest-pace loop restricted to participating
repositories. -/
def paceStep (acc : Option Int × Option String) (p : String × Int) :
    Option Int × Option String :=
  match acc.1 with
  | none => (some p.2, some p.1)
  | some b => if p.2 < b then (some p.2, some p.1) else acc

/-! ### Job orchestrator
(`simplified_repo_analyzer.run_analysis`, lines 414-513, and
`job_manager.run_analysis_task`, lines 54-163).  Discovery, extraction and
sampling are external effects; the orchestration is modelled over the
discovery outcome (the repository list) together with counters for how
many extractor (`get_commit_history` / `get_branch_info`) and sampler
(`get_code_stats`) invocations the run performs. -/

/-- Outcome of `run_analysis`: the `(results, error)` pair it returns plus
the number of extraction and sampling calls made on the way. -/
structure AnalysisRun where
  results : Option (List (String × String))
  error : Option String
  extractorCalls : Nat
  samplerCalls : Nat
deriving DecidableEq

def noReposMsg : String := "No Git repositories found"

def confirmationRequiredMsg : String := "Confirmation required for multiple repositories"

/-- Embedding of `run_analysis` after discovery returned `repos`: the zero-repository
and confirmation gates return early with an error and no mining; otherwise
`analyze_repository` runs per repository, which calls the two extractors
once each and the sampler once. -/
def run_analysis (repos : List (String × String)) (skip_confirmation : Bool) :
    AnalysisRun :=
  if repos = [] then ⟨none, some noReposMsg, 0, 0⟩
  else if skip_confirmation = false ∧ 1 < repos.length then
    ⟨none, some confirmationRequiredMsg, 0, 0⟩
  else ⟨some repos, none, 2 * repos.length, repos.length⟩

inductive JobStatus
  | pending
  | running
  | completed
  | failed
deriving DecidableEq

/-- What `run_analysis_task` leaves behind: the terminal job status and
error column, whether `save_job_data` persisted an analysis payload, and
the mining call counters carried through from `run_analysis`. -/
structure JobOutcome where
  status : JobStatus
  error : Option String
  dataSaved : Bool
  extractorCalls : Nat
  samplerCalls : Nat
deriving DecidableEq

/-- Embedding of `job_manager.run_analysis_task`: a returned error is re-raised and
caught, marking the job `failed` with that message before any data is
saved; on success the job is marked `completed` and `save_job_data` runs
whenever the results dictionary is non-empty. -/
def run_analysis_task (repos : List (String × String)) (skip_confirmation : Bool) :
    JobOutcome :=
  let ar := run_analysis repos skip_confirmation
  match ar.error with
  | some e => ⟨JobStatus.failed, some e, false, ar.extractorCalls, ar.samplerCalls⟩
  | none =>
    match ar.results with
    | some rs =>
      if rs = [] then ⟨JobStatus.completed, none, false, ar.extractorCalls, ar.samplerCalls⟩
      else ⟨JobStatus.completed, none, true, ar.extractorCalls, ar.samplerCalls⟩
    | none => ⟨JobStatus.completed, none, false, ar.extractorCalls, ar.samplerCalls⟩

/-! ### History extractor
(`simplified_repo_analyzer.get_commit_history` / `get_branch_info`,
lines 59-143; the standalone variant, lines 89-183, parses identically).
The `git` child process is modelled by its observable result: an exit
code and the lines of standard output (`result.stdout.strip().split(chr 10)`
is modelled as the line list it produces).  Strings under parsing are
modelled as lists of characters so that Python `str.split` can be embedded
as a recursive function. -/

/-- Python `line.split(sep)` for a one-character separator: splitting the
empty string yields one empty field, and each separator occurrence starts
a new field. -/
def splitOnChar (c : Char) : List Char → List (List Char)
  | [] => [[]]
  | x :: xs =>
    match splitOnChar c xs with
    | [] => [[]]
    | h :: t => if x = c then [] :: h :: t else (x :: h) :: t

/-- Python `str.strip()`: drop whitespace from both ends. -/
def pyStrip (l : List Char) : List Char :=
  ((l.dropWhile Char.isWhitespace).reverse.dropWhile Char.isWhitespace).reverse

/-- One parsed commit, in the order of the
`%H|%an|%ae|%at|%cn|%ce|%ct|%s` format fields. -/
structure CommitRec where
  hash : List Char
  authorName : List Char
  authorEmail : List Char
  authorTs : List Char
  committerName : List Char
  committerEmail : List Char
  committerTs : List Char
  message : List Char
deriving DecidableEq

/-- Parsing of one `git log` line: split on the delimiter, discard the
line when fewer than 8 fields arrive, otherwise take the first 8 fields
(`parts[:8]`). -/
def parseLogLine (line : List Char) : Option CommitRec :=
  let parts := splitOnChar '|' line
  if parts.length < 8 then none
  else some ⟨parts.getD 0 [], parts.getD 1 [], parts.getD 2 [], parts.getD 3 [],
             parts.getD 4 [], parts.getD 5 [], parts.getD 6 [], parts.getD 7 []⟩

structure BranchRec where
  name : List Char
  isCurrent : Bool
deriving DecidableEq

/-- The namespace marker of remote-tracking branch lines. -/
def remoteMarker : List Char := ['r', 'e', 'm', 'o', 't', 'e', 's', '/']

/-- Parsing of one `git branch -a` line: trim, strip a leading `*` as the
current-branch flag (re-trimming the remainder), and drop remote-tracking
branches entirely. -/
def parseBranchLine (line : List Char) : Option BranchRec :=
  let stripped := pyStrip line
  let cur :=
    match stripped with
    | '*' :: rest => (pyStrip rest, true)
    | b => (b, false)
  if remoteMarker.isPrefixOf cur.1 then none else some ⟨cur.1, cur.2⟩

/-- Observable result of a `subprocess.run(..., check=True)` invocation:
with a non-zero exit code the call raises `CalledProcessError` before any
stdout is parsed. -/
structure ProcResult where
  exitCode : Nat
  stdoutLines : List (List Char)
deriving DecidableEq

/-- Embedding of `get_commit_history`: on a non-zero exit the error is logged and an
empty list returned; otherwise non-empty lines are parsed, discarding
malformed ones. -/
def get_commit_history (proc : ProcResult) : List CommitRec :=
  if proc.exitCode ≠ 0 then []
  else (proc.stdoutLines.filter (fun l => !l.isEmpty)).filterMap parseLogLine

/-- Embedding of `get_branch_info`: same failure policy as the commit extractor. -/
def get_branch_info (proc : ProcResult) : List BranchRec :=
  if proc.exitCode ≠ 0 then []
  else (proc.stdoutLines.filter (fun l => !l.isEmpty)).filterMap parseBranchLine

/-- A commit-log line assembled from delimiter-separated header fields
followed by the raw message slot. -/
def joinFields (hdr : List (List Char)) (m : List Char) : List Char :=
  hdr.foldr (fun f acc => f ++ '|' :: acc) m

/-! ### Code volume sampler
(`repo_analyzer.get_code_stats`, lines 185-220, and
`simplified_repo_analyzer.get_code_stats`, lines 145-197).  The per-commit
`git diff --shortstat` child processes are modelled by the mapping from
commit position to their observable stdout lines (`none` models a
`CalledProcessError`, which the loop catches and skips); the working-tree
walk is modelled by the `(root, files)` entries `os.walk` yields. -/

/-- The well-known empty-tree object id used as the diff base for the
commit that has no parent to diff against. -/
def emptyTreeHash : List Char :=
  String.toList "4b825dc642cb6eb9a060e54bf8d69288fbee4904"

/-- Which base a commit is diffed against: the empty-tree sentinel, or the
first parent of the named commit (`hash + caret`). -/
inductive DiffBase
  | emptyTree
  | parentOf (hash : List Char)
deriving DecidableEq

/-- Diff-base selection of the standalone variant
(`repo_analyzer.get_code_stats`): `if i == 0` picks the sentinel for the
first element of the supplied commit list. -/
def diffBases_standalone (hashes : List (List Char)) : List DiffBase :=
  hashes.enum.map (fun p =>
    if p.1 = 0 then DiffBase.emptyTree else DiffBase.parentOf p.2)

/-- Diff-base selection of the backend variant
(`simplified_repo_analyzer.get_code_stats`): `if i == len(commits) - 1`
picks the sentinel for the last element of the supplied commit list. -/
def diffBases_backend (hashes : List (List Char)) : List DiffBase :=
  hashes.enum.map (fun p =>
    if p.1 = hashes.length - 1 then DiffBase.emptyTree else DiffBase.parentOf p.2)

/-- The fixed source-code extension allow-list of the backend variant. -/
def sourceExtensions : List (List Char) :=
  [".py", ".js", ".java", ".c", ".cpp", ".h", ".cs", ".php", ".rb", ".go", ".ts"].map
    String.toList

/-- The suffix of a character list starting at its last dot, or `[]` when
it has no dot. -/
def lastDotSuffix : List Char → List Char
  | [] => []
  | c :: cs =>
    match lastDotSuffix cs with
    | [] => if c = '.' then c :: cs else []
    | r => r

/-- Python `os.path.splitext(file)[1]` for a bare file name: the extension
from the last dot, except that a run of leading dots never starts an
extension (so a hidden file like `.bashrc` has none). -/
def extOf (name : List Char) : List Char :=
  lastDotSuffix (name.dropWhile (fun c => c = '.'))

/-- Python dict update `d[k] = d.get(k, 0) + 1` on an insertion-ordered
association list. -/
def bump : List (List Char × Nat) → List Char → List (List Char × Nat)
  | [], k => [(k, 1)]
  | (k2, v) :: rest, k =>
    if k2 = k then (k2, v + 1) :: rest else (k2, v) :: bump rest k

/-- Lookup in the extension histogram (0 for an absent key). -/
def histCount : List (List Char × Nat) → List Char → Nat
  | [], _ => 0
  | (k2, v) :: rest, k => if k2 = k then v else histCount rest k

/-- Python substring test `pat in l`. -/
def containsSub (pat : List Char) : List Char → Bool
  | [] => pat.isPrefixOf []
  | c :: cs => pat.isPrefixOf (c :: cs) || containsSub pat cs

/-- The exclusion test of the walk: skip a root whose path contains the metadata directory name `.git` as a substring. -/
def gitInRoot (root : List Char) : Bool :=
  containsSub ['.', 'g', 'i', 't'] root

/-- One file of the census: a non-empty extension is tallied into the
histogram, and counted as a source file when it is in the allow-list. -/
def censusStep (acc : Nat × List (List Char × Nat)) (file : List Char) :
    Nat × List (List Char × Nat) :=
  let ext := extOf file
  if ext = [] then acc
  else ((if ext ∈ sourceExtensions then acc.1 + 1 else acc.1), bump acc.2 ext)

/-- The whole working-tree walk: every `(root, files)` entry whose root
does not contain `.git` contributes its files to the census. -/
def censusTree (tree : List (List Char × List (List Char))) :
    Nat × List (List Char × Nat) :=
  tree.foldl
    (fun acc entry => if gitInRoot entry.1 then acc else entry.2.foldl censusStep acc)
    (0, [])

/-- The files the census visits, in visit order. -/
def talliedFiles (tree : List (List Char × List (List Char))) : List (List Char) :=
  (tree.filter (fun e => !gitInRoot e.1)).flatMap (fun e => e.2)

/-- Value of a decimal digit string (`int(match.group(1))`). -/
def digitsToNat (ds : List Char) : Nat :=
  ds.foldl (fun a c => a * 10 + (c.toNat - Char.toNat '0')) 0

/-- The literal that must follow the digit group of the shortstat pattern
`(\d+) insertion[s]?`. -/
def insertionMarker : List Char :=
  [' ', 'i', 'n', 's', 'e', 'r', 't', 'i', 'o', 'n']

/-- Embedding of the `re.search` of the shortstat insertion pattern on one line: the
leftmost maximal digit run immediately followed by ` insertion` (a greedy
`\d+` cannot backtrack into a successful match, and no position inside a
failing digit run can start a match, so scanning one character at a time
with a maximal run at each position is the regex semantics). -/
def insertionsOf : List Char → Nat
  | [] => 0
  | c :: cs =>
    if c.isDigit && insertionMarker.isPrefixOf ((c :: cs).dropWhile Char.isDigit) then
      digitsToNat ((c :: cs).takeWhile Char.isDigit)
    else insertionsOf cs

/-- The `total_lines` accumulation over the per-commit diff loop: a failed
diff is skipped, a successful one contributes the insertion count of each
stdout line. -/
def totalInsertedLines (commits : List (List Char))
    (diffOut : Nat → Option (List (List Char))) : Nat :=
  (List.range commits.length).foldl
    (fun acc i =>
      match diffOut i with
      | none => acc
      | some outLines => outLines.foldl (fun a l => a + insertionsOf l) acc)
    0

/-- Result of `get_code_stats` (backend variant): `fileExtensions = none`
models the `file_extensions` key being absent from the returned dict. -/
structure CodeStats where
  totalLines : Nat
  fileCount : Nat
  fileExtensions : Option (List (List Char × Nat))
deriving DecidableEq

/-- Embedding of `simplified_repo_analyzer.get_code_stats`: an empty commit list
returns zeroed counts immediately, before any diff or any walk of the
working tree; otherwise the diff loop and the file census run. -/
def get_code_stats (commits : List (List Char))
    (diffOut : Nat → Option (List (List Char)))
    (tree : List (List Char × List (List Char))) : CodeStats :=
  if commits = [] then ⟨0, 0, none⟩
  else
    let census := censusTree tree
    ⟨totalInsertedLines commits diffOut, census.1, some census.2⟩

/-! ### Statistics engine: peak-window summary fields with the
commits-per-minute division (`repo_analyzer.calculate_repo_summary`,
lines 289-296) -/

/-- The peak-window summary fields.  The commits-per-minute value is the
exact rational `(window_size * 60) / best_window_duration`. -/
structure PeakInfo where
  peakPaceCommits : Nat
  peakPaceDuration : Int
  peakPaceStart : Int
  peakPaceEnd : Int
  peakCommitsPerMinute : Rat
deriving DecidableEq

/-- The peak-window part of `calculate_repo_summary` with its run-time
behavior made explicit: Python raises `ZeroDivisionError` when
`best_window_duration` is `0.0`, and the block only runs when more than 5
commits exist. -/
def peakFields (ts : List Int) : Except String (Option PeakInfo) :=
  if 5 < ts.length then
    let s := pySortInt ts
    match peakScan s with
    | some (j, d) =>
      if d = 0 then Except.error "ZeroDivisionError"
      else
        Except.ok (some ⟨5, d, s.getD j 0, s.getD (j + 4) 0, (5 * 60 : Rat) / (d : Rat)⟩)
    | none => Except.ok none
  else Except.ok none

/-- Example working tree: one non-metadata directory holding a source
file and a non-source file. -/
def pyTree : List (List Char × List (List Char)) :=
  [(['.'], [['a', '.', 'p', 'y'], ['b', '.', 'm', 'd']])]

/-- Concrete commit-log header fields for the delimiter witness. -/
def witHdr : List (List Char) :=
  ["abc123", "alice", "a@x", "100", "bob", "b@x", "200"].map String.toList

/-- Concrete commit message containing the delimiter. -/
def witMsg : List Char := ['f', 'i', 'x', '|', 'w', 'i', 'p']

/-- Example summary mapping with a single repository whose two commits
share one timestamp, so its recorded minimum inter-commit gap is 0. -/
def zeroGapSummaries : List (String × RepoSummaryStats) :=
  [("repoA", ⟨2, 1, 0, min_time_between_commits [5, 5]⟩)]

/-- Example summary mapping for the amended fastest-pace claim: two
repositories with equal positive minimum gaps and a slower third. -/
def tiedPaceSummaries : List (String × RepoSummaryStats) :=
  [("first", ⟨4, 1, 9, some 10⟩), ("second", ⟨7, 2, 3, some 10⟩),
   ("slow", ⟨5, 1, 2, some 40⟩)]

/-! ## Helper lemmas -/

/-! ### Fold characterization of the peak scan -/

theorem peakStep_some (ts : List Int) (acc : Option (Nat × Int)) (i : Nat) :
    ∃ j bd, peakStep ts acc i = some (j, bd) := by
  unfold peakStep
  match acc with
  | none => exact ⟨i, windowSpan ts i, rfl⟩
  | some (j, bd) =>
    by_cases h : windowSpan ts i < bd
    · exact ⟨i, windowSpan ts i, by simp [h]⟩
    · exact ⟨j, bd, by simp [h]⟩

theorem peakFold_some (ts : List Int) (L : List Nat) (j : Nat) (bd : Int)
    (hjb : bd = windowSpan ts j) :
    ∃ j2 bd2, L.foldl (peakStep ts) (some (j, bd)) = some (j2, bd2) ∧
      bd2 = windowSpan ts j2 ∧ bd2 ≤ bd ∧ (j2 = j ∨ j2 ∈ L) ∧
      ∀ i ∈ L, bd2 ≤ windowSpan ts i := by
  induction L generalizing j bd with
  | nil => exact ⟨j, bd, rfl, hjb, le_refl bd, Or.inl rfl, by simp⟩
  | cons x xs ih =>
    rw [List.foldl_cons]
    by_cases h : windowSpan ts x < bd
    · have hstep : peakStep ts (some (j, bd)) x = some (x, windowSpan ts x) := by
        simp [peakStep, h]
      rw [hstep]
      obtain ⟨j2, bd2, heq, hw, hle, hmem, hall⟩ := ih x (windowSpan ts x) rfl
      refine ⟨j2, bd2, heq, hw, le_trans hle (le_of_lt h), ?_, ?_⟩
      · rcases hmem with h1 | h1
        · exact Or.inr (by simp [h1])
        · exact Or.inr (List.mem_cons_of_mem x h1)
      · intro i hi
        rcases List.mem_cons.mp hi with h1 | h1
        · exact h1 ▸ hle
        · exact hall i h1
    · have hstep : peakStep ts (some (j, bd)) x = some (j, bd) := by
        simp [peakStep, h]
      rw [hstep]
      obtain ⟨j2, bd2, heq, hw, hle, hmem, hall⟩ := ih j bd hjb
      refine ⟨j2, bd2, heq, hw, hle, ?_, ?_⟩
      · rcases hmem with h1 | h1
        · exact Or.inl h1
        · exact Or.inr (List.mem_cons_of_mem x h1)
      · intro i hi
        rcases List.mem_cons.mp hi with h1 | h1
        · subst h1
          exact le_trans hle (not_lt.mp h)
        · exact hall i h1

theorem peakScan_spec (ts : List Int) (h6 : 6 ≤ ts.length) :
    ∃ j d, peakScan ts = some (j, d) ∧ j + 5 ≤ ts.length ∧
      d = windowSpan ts j ∧
      ∀ i, i + 5 ≤ ts.length → d ≤ windowSpan ts i := by
  unfold peakScan
  rw [List.range_succ_eq_map, List.foldl_cons]
  have hstep : peakStep ts none 0 = some (0, windowSpan ts 0) := rfl
  rw [hstep]
  obtain ⟨j2, bd2, heq, hw, hle, hmem, hall⟩ :=
    peakFold_some ts ((List.range (ts.length - 5)).map Nat.succ) 0 (windowSpan ts 0) rfl
  refine ⟨j2, bd2, heq, ?_, hw, ?_⟩
  · rcases hmem with h1 | h1
    · omega
    · obtain ⟨k, hk, hks⟩ := List.mem_map.mp h1
      have := List.mem_range.mp hk
      omega
  · intro i hi
    by_cases hz : i = 0
    · subst hz
      exact hle
    · refine hall i ?_
      refine List.mem_map.mpr ⟨i - 1, List.mem_range.mpr (by omega), by omega⟩

theorem fastestPaceFold_eq_paceFold (summaries : List (String × RepoSummaryStats)) :
    fastestPaceFold summaries = (positivePaces summaries).foldl paceStep (none, none) := by
  unfold fastestPaceFold positivePaces
  generalize (none, none) = acc
  induction summaries generalizing acc with
  | nil => rfl
  | cons x xs ih =>
    rw [List.foldl_cons, List.filterMap_cons]
    match hx : x.2.minTimeBetweenCommits with
    | none => simpa using ih acc
    | some m =>
      by_cases hm : 0 < m
      · simp only [hx, if_pos hm, List.foldl_cons]
        match hacc : acc.1 with
        | none => simpa [paceStep, hacc] using ih _
        | some b =>
          by_cases hb : m < b
          · simpa [paceStep, hacc, hb] using ih _
          · simpa [paceStep, hacc, hb] using ih _
      · simpa [hx, if_neg hm] using ih acc

theorem paceFold_some (ps : List (String × Int)) (b : Int) (nm : String) :
    (ps.foldl paceStep (some b, some nm) = (some b, some nm) ∧ ∀ q ∈ ps, b ≤ q.2) ∨
    (∃ l1 p l2, ps = l1 ++ p :: l2 ∧
      ps.foldl paceStep (some b, some nm) = (some p.2, some p.1) ∧ p.2 < b ∧
      (∀ q ∈ l1, p.2 < q.2) ∧ (∀ q ∈ l2, p.2 ≤ q.2)) := by
  induction ps generalizing b nm with
  | nil => exact Or.inl ⟨rfl, by simp⟩
  | cons x xs ih =>
    rw [List.foldl_cons]
    by_cases hx : x.2 < b
    · have hstep : paceStep (some b, some nm) x = (some x.2, some x.1) := by
        simp [paceStep, hx]
      rw [hstep]
      rcases ih x.2 x.1 with ⟨heq, hall⟩ | ⟨l1, p, l2, hsplit, heq, hlt, hbefore, hafter⟩
      · refine Or.inr ⟨[], x, xs, by simp, heq, hx, by simp, hall⟩
      · refine Or.inr ⟨x :: l1, p, l2, by simp [hsplit], heq, lt_trans hlt hx, ?_, hafter⟩
        intro q hq
        rcases List.mem_cons.mp hq with h1 | h1
        · exact h1 ▸ hlt
        · exact hbefore q h1
    · have hstep : paceStep (some b, some nm) x = (some b, some nm) := by
        simp [paceStep, hx]
      rw [hstep]
      rcases ih b nm with ⟨heq, hall⟩ | ⟨l1, p, l2, hsplit, heq, hlt, hbefore, hafter⟩
      · refine Or.inl ⟨heq, ?_⟩
        intro q hq
        rcases List.mem_cons.mp hq with h1 | h1
        · exact h1 ▸ not_lt.mp hx
        · exact hall q h1
      · refine Or.inr ⟨x :: l1, p, l2, by simp [hsplit], heq, hlt, ?_, hafter⟩
        intro q hq
        rcases List.mem_cons.mp hq with h1 | h1
        · exact h1 ▸ lt_of_lt_of_le hlt (not_lt.mp hx)
        · exact hbefore q h1

theorem paceFold_none (ps : List (String × Int)) (hne : ps ≠ []) :
    ∃ l1 p l2, ps = l1 ++ p :: l2 ∧
      ps.foldl paceStep (none, none) = (some p.2, some p.1) ∧
      (∀ q ∈ l1, p.2 < q.2) ∧ (∀ q ∈ l2, p.2 ≤ q.2) := by
  match ps with
  | [] => exact absurd rfl hne
  | x :: xs =>
    rw [List.foldl_cons]
    have hstep : paceStep (none, none) x = (some x.2, some x.1) := rfl
    rw [hstep]
    rcases paceFold_some xs x.2 x.1 with ⟨heq, hall⟩ | ⟨l1, p, l2, hsplit, heq, hlt, hbefore, hafter⟩
    · exact ⟨[], x, xs, by simp, heq, by simp, hall⟩
    · refine ⟨x :: l1, p, l2, by simp [hsplit], heq, ?_, hafter⟩
      intro q hq
      rcases List.mem_cons.mp hq with h1 | h1
      · exact h1 ▸ hlt
      · exact hbefore q h1

theorem foldl_add_eq_sum (l : List Nat) (a : Nat) :
    l.foldl (fun x y => x + y) a = a + l.sum := by
  induction l generalizing a with
  | nil => simp
  | cons x xs ih =>
    rw [List.foldl_cons, ih, List.sum_cons]
    omega

/-! ### Split lemmas -/

theorem splitOnChar_cons (c x : Char) (xs : List Char) :
    splitOnChar c (x :: xs) =
      match splitOnChar c xs with
      | [] => [[]]
      | h :: t => if x = c then [] :: h :: t else (x :: h) :: t := rfl

theorem splitOnChar_ne_nil (c : Char) (l : List Char) : splitOnChar c l ≠ [] := by
  match l with
  | [] => simp [splitOnChar]
  | x :: xs =>
    rw [splitOnChar_cons]
    match h : splitOnChar c xs with
    | [] => simp
    | h2 :: t =>
      by_cases hx : x = c
      · simp [hx]
      · simp [hx]

theorem splitOnChar_not_mem (c : Char) (l : List Char) (h : c ∉ l) :
    splitOnChar c l = [l] := by
  induction l with
  | nil => rfl
  | cons x xs ih =>
    have hx : x ≠ c := fun he => h (he ▸ List.mem_cons_self x xs)
    have hxs : c ∉ xs := fun hm => h (List.mem_cons_of_mem x hm)
    rw [splitOnChar_cons, ih hxs]
    simp [hx]

theorem splitOnChar_append (c : Char) (a b : List Char) (h : c ∉ a) :
    splitOnChar c (a ++ c :: b) = a :: splitOnChar c b := by
  induction a with
  | nil =>
    show splitOnChar c (c :: b) = [] :: splitOnChar c b
    rw [splitOnChar_cons]
    match hb : splitOnChar c b with
    | [] => exact absurd hb (splitOnChar_ne_nil c b)
    | h2 :: t => simp
  | cons x xs ih =>
    have hx : x ≠ c := fun he => h (he ▸ List.mem_cons_self x xs)
    have hxs : c ∉ xs := fun hm => h (List.mem_cons_of_mem x hm)
    show splitOnChar c (x :: (xs ++ c :: b)) = (x :: xs) :: splitOnChar c b
    rw [splitOnChar_cons, ih hxs]
    simp [hx]

theorem splitOnChar_join (c : Char) (hdr : List (List Char)) (m : List Char)
    (h : ∀ f ∈ hdr, c ∉ f) :
    splitOnChar c (hdr.foldr (fun f acc => f ++ c :: acc) m) =
      hdr ++ splitOnChar c m := by
  induction hdr with
  | nil => rfl
  | cons f fs ih =>
    rw [List.foldr_cons, splitOnChar_append c f _ (h f (List.mem_cons_self f fs)),
      ih (fun g hg => h g (List.mem_cons_of_mem f hg))]
    rfl

theorem splitOnChar_head (c : Char) (l : List Char) :
    (splitOnChar c l).headD [] = l.takeWhile (fun x => x ≠ c) := by
  induction l with
  | nil => rfl
  | cons x xs ih =>
    rw [splitOnChar_cons]
    match h : splitOnChar c xs with
    | [] => exact absurd h (splitOnChar_ne_nil c xs)
    | h2 :: t =>
      rw [h] at ih
      simp only [List.headD_cons] at ih
      by_cases hx : x = c
      · simp [hx, List.takeWhile_cons]
      · simp [hx, List.takeWhile_cons, ih]

theorem splitOnChar_length_two (c : Char) (l : List Char) (h : c ∈ l) :
    2 ≤ (splitOnChar c l).length := by
  induction l with
  | nil => exact absurd h (List.not_mem_nil c)
  | cons x xs ih =>
    rw [splitOnChar_cons]
    match hx : splitOnChar c xs with
    | [] => exact absurd hx (splitOnChar_ne_nil c xs)
    | h2 :: t =>
      by_cases hxc : x = c
      · simp [hxc]
      · have hm : c ∈ xs := by
          rcases List.mem_cons.mp h with h1 | h1
          · exact absurd h1.symm hxc
          · exact h1
        have h2le := ih hm
        rw [hx] at h2le
        simp only [List.length_cons] at h2le ⊢
        simp only [hxc, if_false, List.length_cons]
        omega

theorem takeWhile_ne_of_mem (c : Char) (l : List Char) (h : c ∈ l) :
    l.takeWhile (fun x => x ≠ c) ≠ l := by
  intro he
  have : ∀ x ∈ l, (fun x => decide (x ≠ c)) x = true :=
    List.takeWhile_eq_self_iff.mp (by simpa using he)
  have := this c h
  simp at this

/-! ### Census lemmas -/

theorem histCount_bump (h : List (List Char × Nat)) (k k2 : List Char) :
    histCount (bump h k) k2 = histCount h k2 + (if k = k2 then 1 else 0) := by
  induction h with
  | nil =>
    by_cases he : k = k2
    · simp [bump, histCount, he]
    · simp [bump, histCount, he]
  | cons entry rest ih =>
    obtain ⟨k3, v⟩ := entry
    by_cases h3 : k3 = k
    · subst h3
      by_cases he : k3 = k2
      · simp [bump, histCount, he]
      · simp [bump, histCount, he]
    · by_cases he : k3 = k2
      · subst he
        have : ¬ k = k3 := fun hc => h3 hc.symm
        simp [bump, histCount, h3, this]
      · simp [bump, histCount, h3, he, ih]

theorem censusFold_files (F : List (List Char)) (acc : Nat × List (List Char × Nat)) :
    (F.foldl censusStep acc).1 =
      acc.1 + F.countP (fun f => decide (extOf f ≠ [] ∧ extOf f ∈ sourceExtensions)) ∧
    ∀ k, k ≠ [] → histCount (F.foldl censusStep acc).2 k =
      histCount acc.2 k + F.countP (fun f => decide (extOf f = k)) := by
  induction F generalizing acc with
  | nil => simp
  | cons f fs ih =>
    rw [List.foldl_cons]
    by_cases hf : extOf f = []
    · have hstep : censusStep acc f = acc := by
        simp [censusStep, hf]
      rw [hstep]
      obtain ⟨ih1, ih2⟩ := ih acc
      refine ⟨?_, ?_⟩
      · rw [ih1, List.countP_cons]
        simp [hf]
      · intro k hk
        rw [ih2 k hk, List.countP_cons]
        have : extOf f ≠ k := fun hc => hk (hc ▸ hf)
        simp [this]
    · have hstep : censusStep acc f =
          ((if extOf f ∈ sourceExtensions then acc.1 + 1 else acc.1), bump acc.2 (extOf f)) := by
        simp [censusStep, hf]
      rw [hstep]
      obtain ⟨ih1, ih2⟩ := ih _
      refine ⟨?_, ?_⟩
      · rw [ih1, List.countP_cons]
        by_cases hsrc : extOf f ∈ sourceExtensions
        · simp [hf, hsrc]
          omega
        · simp [hf, hsrc]
      · intro k hk
        rw [ih2 k hk]
        simp only [histCount_bump, List.countP_cons]
        by_cases he : extOf f = k
        · simp [he]
          omega
        · simp [he]

theorem censusTree_fold (tree : List (List Char × List (List Char)))
    (acc : Nat × List (List Char × Nat)) :
    (tree.foldl
      (fun a entry => if gitInRoot entry.1 then a else entry.2.foldl censusStep a)
      acc).1 =
      acc.1 + (talliedFiles tree).countP
        (fun f => decide (extOf f ≠ [] ∧ extOf f ∈ sourceExtensions)) ∧
    ∀ k, k ≠ [] →
      histCount (tree.foldl
        (fun a entry => if gitInRoot entry.1 then a else entry.2.foldl censusStep a)
        acc).2 k =
      histCount acc.2 k + (talliedFiles tree).countP (fun f => decide (extOf f = k)) := by
  induction tree generalizing acc with
  | nil => simp [talliedFiles]
  | cons e rest ih =>
    rw [List.foldl_cons]
    have htal : talliedFiles (e :: rest) =
        (if gitInRoot e.1 then [] else e.2) ++ talliedFiles rest := by
      by_cases hg : gitInRoot e.1
      · simp [talliedFiles, List.filter_cons, hg]
      · simp [talliedFiles, List.filter_cons, hg]
    by_cases hg : gitInRoot e.1
    · rw [if_pos hg]
      obtain ⟨ih1, ih2⟩ := ih acc
      rw [htal, if_pos hg]
      exact ⟨by simpa using ih1, fun k hk => by simpa using ih2 k hk⟩
    · rw [if_neg hg]
      obtain ⟨ih1, ih2⟩ := ih (e.2.foldl censusStep acc)
      obtain ⟨hf1, hf2⟩ := censusFold_files e.2 acc
      rw [htal, if_neg hg]
      refine ⟨?_, ?_⟩
      · rw [ih1, hf1, List.countP_append]
        omega
      · intro k hk
        rw [ih2 k hk, hf2 k hk, List.countP_append]
        omega

/-! ## Claim theorems, witnesses and counterexamples -/

/-- C1: for every chronologically sorted sequence of at least 6 commit
timestamps, the peak activity window reported by the repository summary is
a 5-commit contiguous window whose time span is at most the span of every
other 5-commit contiguous window, every window position being examined. -/
theorem peak_window_is_minimal (ts : List Int)
    (hs : List.Sorted (fun a b => a ≤ b) ts) (h6 : 6 ≤ ts.length) :
    ∃ j d, peak_pace ts = some (j, d) ∧ j + 5 ≤ ts.length ∧
      d = windowSpan ts j ∧
      ∀ i, i + 5 ≤ ts.length → d ≤ windowSpan ts i := by
  have hsort : pySortInt ts = ts := List.Sorted.insertionSort_eq hs
  unfold peak_pace
  rw [if_pos (by omega), hsort]
  exact peakScan_spec ts h6

theorem peak_window_is_minimal_witness :
    List.Sorted (fun a b => a ≤ b) ([0, 1, 2, 3, 10, 20] : List Int) ∧
    6 ≤ ([0, 1, 2, 3, 10, 20] : List Int).length ∧
    (∃ j d, peak_pace [0, 1, 2, 3, 10, 20] = some (j, d) ∧
      j + 5 ≤ ([0, 1, 2, 3, 10, 20] : List Int).length ∧
      d = windowSpan [0, 1, 2, 3, 10, 20] j ∧
      ∀ i, i + 5 ≤ ([0, 1, 2, 3, 10, 20] : List Int).length →
        d ≤ windowSpan [0, 1, 2, 3, 10, 20] i) :=
  ⟨by decide, by decide, peak_window_is_minimal [0, 1, 2, 3, 10, 20] (by decide) (by decide)⟩

/-- C2 counterexample: in the backend variant the commit diffed against
the empty-tree sentinel is the LAST element of the supplied sequence, not
the first: with two commits the first element is diffed against its own
parent and the second against the sentinel. -/
theorem sentinel_commit_claim_false :
    diffBases_backend [['a'], ['b']] = [DiffBase.parentOf ['a'], DiffBase.emptyTree] ∧
    (diffBases_backend [['a'], ['b']]).getD 0 DiffBase.emptyTree ≠ DiffBase.emptyTree ∧
    diffBases_standalone [['a'], ['b']] = [DiffBase.emptyTree, DiffBase.parentOf ['b']] :=
  ⟨by decide, by decide, by decide⟩

/-- C2 (amended): the standalone variant diffs exactly the first element
of the supplied sequence against the empty-tree sentinel, while the
backend variant diffs exactly the last element against it; every other
commit is diffed against its own first parent. -/
theorem sentinel_commit_variants (hashes : List (List Char)) (i : Nat)
    (hi : i < hashes.length) :
    (diffBases_standalone hashes).getD i DiffBase.emptyTree =
      (if i = 0 then DiffBase.emptyTree else DiffBase.parentOf hashes[i]) ∧
    (diffBases_backend hashes).getD i DiffBase.emptyTree =
      (if i = hashes.length - 1 then DiffBase.emptyTree else DiffBase.parentOf hashes[i]) := by
  constructor
  · have hl : i < (diffBases_standalone hashes).length := by
      simpa [diffBases_standalone] using hi
    rw [List.getD_eq_getElem _ _ hl]
    simp [diffBases_standalone]
  · have hl : i < (diffBases_backend hashes).length := by
      simpa [diffBases_backend] using hi
    rw [List.getD_eq_getElem _ _ hl]
    simp [diffBases_backend]

theorem sentinel_commit_variants_witness :
    1 < ([['a'], ['b'], ['c']] : List (List Char)).length ∧
    ((diffBases_standalone [['a'], ['b'], ['c']]).getD 1 DiffBase.emptyTree =
      (if 1 = 0 then DiffBase.emptyTree
       else DiffBase.parentOf (([['a'], ['b'], ['c']] : List (List Char))[1])) ∧
     (diffBases_backend [['a'], ['b'], ['c']]).getD 1 DiffBase.emptyTree =
      (if 1 = ([['a'], ['b'], ['c']] : List (List Char)).length - 1 then DiffBase.emptyTree
       else DiffBase.parentOf (([['a'], ['b'], ['c']] : List (List Char))[1]))) :=
  ⟨by decide, sentinel_commit_variants [['a'], ['b'], ['c']] 1 (by decide)⟩

/-- C3: a run whose discovery yields two or more repositories without
confirmation ends with the job `failed`, carrying the "confirmation
required" message, and performs no extractor or sampler call at all. -/
theorem confirmation_gate_blocks_mining (repos : List (String × String))
    (h2 : 2 ≤ repos.length) :
    (run_analysis_task repos false).status = JobStatus.failed ∧
    (run_analysis_task repos false).error = some confirmationRequiredMsg ∧
    (run_analysis_task repos false).extractorCalls = 0 ∧
    (run_analysis_task repos false).samplerCalls = 0 ∧
    (run_analysis_task repos false).dataSaved = false := by
  have hne : repos ≠ [] := by
    intro h
    rw [h] at h2
    simp at h2
  have hra : run_analysis repos false =
      ⟨none, some confirmationRequiredMsg, 0, 0⟩ := by
    unfold run_analysis
    rw [if_neg hne, if_pos ⟨rfl, by omega⟩]
  unfold run_analysis_task
  rw [hra]
  exact ⟨rfl, rfl, rfl, rfl, rfl⟩

theorem confirmation_gate_blocks_mining_witness :
    2 ≤ ([("a", "/a"), ("b", "/b")] : List (String × String)).length ∧
    ((run_analysis_task [("a", "/a"), ("b", "/b")] false).status = JobStatus.failed ∧
     (run_analysis_task [("a", "/a"), ("b", "/b")] false).error = some confirmationRequiredMsg ∧
     (run_analysis_task [("a", "/a"), ("b", "/b")] false).extractorCalls = 0 ∧
     (run_analysis_task [("a", "/a"), ("b", "/b")] false).samplerCalls = 0 ∧
     (run_analysis_task [("a", "/a"), ("b", "/b")] false).dataSaved = false) :=
  ⟨by decide, confirmation_gate_blocks_mining [("a", "/a"), ("b", "/b")] (by decide)⟩

/-- C4: a run whose discovery yields zero repositories always ends with
the job `failed`, carrying the "no repositories found" message, with no
analysis data payload persisted. -/
theorem zero_repos_fails_without_payload (skip_confirmation : Bool) :
    (run_analysis_task [] skip_confirmation).status = JobStatus.failed ∧
    (run_analysis_task [] skip_confirmation).error = some noReposMsg ∧
    (run_analysis_task [] skip_confirmation).dataSaved = false := by
  refine ⟨rfl, rfl, rfl⟩

/-- C5 counterexample: a repository whose minimum inter-commit gap is 0
seconds is skipped by the fastest-pace loop, so the reported pace is the
untouched infinity (`none`) and no repository is reported, not the
mapping-wide minimum gap of 0. -/
theorem fastest_pace_claim_false :
    min_time_between_commits [5, 5] = some 0 ∧
    (calculate_aggregate_stats zeroGapSummaries).fastestPace = none ∧
    (calculate_aggregate_stats zeroGapSummaries).fastestPace ≠ some 0 ∧
    (calculate_aggregate_stats zeroGapSummaries).fastestPaceRepo = none :=
  ⟨by decide, by decide, by decide, by decide⟩

/-- C5 (amended): the reported fastest pace is the minimum recorded
minimum inter-commit gap over the repositories whose gap is present and
strictly positive, and the reported repository is the first-encountered
one achieving it (repositories with an absent or zero gap are skipped;
when none qualifies the pace stays infinite). -/
theorem fastest_pace_min_over_positive (summaries : List (String × RepoSummaryStats))
    (hne : positivePaces summaries ≠ []) :
    ∃ l1 p l2, positivePaces summaries = l1 ++ p :: l2 ∧
      (calculate_aggregate_stats summaries).fastestPace = some p.2 ∧
      (calculate_aggregate_stats summaries).fastestPaceRepo = some p.1 ∧
      (∀ q ∈ positivePaces summaries, p.2 ≤ q.2) ∧
      (∀ q ∈ l1, p.2 < q.2) := by
  obtain ⟨l1, p, l2, hsplit, heq, hbefore, hafter⟩ := paceFold_none _ hne
  have hfp : fastestPaceFold summaries = (some p.2, some p.1) := by
    rw [fastestPaceFold_eq_paceFold]
    exact heq
  refine ⟨l1, p, l2, hsplit, ?_, ?_, ?_, hbefore⟩
  · show (fastestPaceFold summaries).1 = some p.2
    rw [hfp]
  · show (fastestPaceFold summaries).2 = some p.1
    rw [hfp]
  · intro q hq
    rw [hsplit] at hq
    rcases List.mem_append.mp hq with h1 | h1
    · exact le_of_lt (hbefore q h1)
    · rcases List.mem_cons.mp h1 with h2 | h2
      · exact h2 ▸ le_refl _
      · exact hafter q h2

theorem fastest_pace_min_over_positive_witness :
    positivePaces tiedPaceSummaries ≠ [] ∧
    (∃ l1 p l2, positivePaces tiedPaceSummaries = l1 ++ p :: l2 ∧
      (calculate_aggregate_stats tiedPaceSummaries).fastestPace = some p.2 ∧
      (calculate_aggregate_stats tiedPaceSummaries).fastestPaceRepo = some p.1 ∧
      (∀ q ∈ positivePaces tiedPaceSummaries, p.2 ≤ q.2) ∧
      (∀ q ∈ l1, p.2 < q.2)) :=
  ⟨by decide, fastest_pace_min_over_positive tiedPaceSummaries (by decide)⟩

/-- C6: the aggregate total commit count is the exact sum of the
per-repository commit counts over the whole mapping. -/
theorem aggregate_total_commits_exact (summaries : List (String × RepoSummaryStats)) :
    (calculate_aggregate_stats summaries).totalCommits =
      (summaries.map (fun p => p.2.numCommits)).sum := by
  unfold calculate_aggregate_stats pySumNat
  exact (foldl_add_eq_sum _ 0).trans (Nat.zero_add _)

/-- C7: whenever the underlying version-control process exits non-zero,
the commit extractor and the branch extractor both return an empty
sequence instead of propagating the error. -/
theorem failed_extraction_yields_empty (proc : ProcResult) (h : proc.exitCode ≠ 0) :
    get_commit_history proc = [] ∧ get_branch_info proc = [] := by
  unfold get_commit_history get_branch_info
  rw [if_pos h, if_pos h]
  exact ⟨rfl, rfl⟩

theorem failed_extraction_yields_empty_witness :
    (ProcResult.mk 128 [['f', 'a', 't', 'a', 'l']]).exitCode ≠ 0 ∧
    (get_commit_history ⟨128, [['f', 'a', 't', 'a', 'l']]⟩ = [] ∧
     get_branch_info ⟨128, [['f', 'a', 't', 'a', 'l']]⟩ = []) :=
  ⟨by decide, failed_extraction_yields_empty ⟨128, [['f', 'a', 't', 'a', 'l']]⟩ (by decide)⟩

/-- C8 counterexample: six commits sharing one timestamp make the minimum
5-commit window span `0.0`, and the `(window_size * 60) /
best_window_duration` division raises `ZeroDivisionError` instead of
returning a summary. -/
theorem zero_span_peak_raises :
    peakFields [0, 0, 0, 0, 0, 0] = Except.error "ZeroDivisionError" := rfl

/-- C8 (amended): for every sequence of at least 6 commits in which no 5
consecutive sorted commits share one timestamp (every 5-window span is
non-zero), the peak-window block returns all five fields without raising,
the commits-per-minute value being exactly `300 / duration`. -/
theorem peak_fields_ok_when_span_positive (ts : List Int) (h6 : 6 ≤ ts.length)
    (hpos : ∀ i, i + 5 ≤ ts.length → windowSpan (pySortInt ts) i ≠ 0) :
    ∃ j d, peakFields ts =
        Except.ok (some ⟨5, d, (pySortInt ts).getD j 0, (pySortInt ts).getD (j + 4) 0,
          (5 * 60 : Rat) / (d : Rat)⟩) ∧
      j + 5 ≤ ts.length ∧ d = windowSpan (pySortInt ts) j ∧
      ∀ i, i + 5 ≤ ts.length → d ≤ windowSpan (pySortInt ts) i := by
  have hlen : (pySortInt ts).length = ts.length := List.length_insertionSort _ _
  obtain ⟨j, d, hscan, hj, hd, hmin⟩ := peakScan_spec (pySortInt ts) (by omega)
  have hdz : d ≠ 0 := by
    rw [hd]
    exact hpos j (by omega)
  refine ⟨j, d, ?_, by omega, hd, fun i hi => hmin i (by omega)⟩
  unfold peakFields
  rw [if_pos (by omega)]
  simp only [hscan]
  rw [if_neg hdz]

theorem peak_fields_ok_when_span_positive_witness :
    6 ≤ ([0, 60, 120, 180, 240, 600] : List Int).length ∧
    (∀ i, i + 5 ≤ ([0, 60, 120, 180, 240, 600] : List Int).length →
      windowSpan (pySortInt [0, 60, 120, 180, 240, 600]) i ≠ 0) ∧
    (∃ j d, peakFields [0, 60, 120, 180, 240, 600] =
        Except.ok (some ⟨5, d, (pySortInt [0, 60, 120, 180, 240, 600]).getD j 0,
          (pySortInt [0, 60, 120, 180, 240, 600]).getD (j + 4) 0,
          (5 * 60 : Rat) / (d : Rat)⟩) ∧
      j + 5 ≤ ([0, 60, 120, 180, 240, 600] : List Int).length ∧
      d = windowSpan (pySortInt [0, 60, 120, 180, 240, 600]) j ∧
      ∀ i, i + 5 ≤ ([0, 60, 120, 180, 240, 600] : List Int).length →
        d ≤ windowSpan (pySortInt [0, 60, 120, 180, 240, 600]) i) := by
  refine ⟨by decide, ?_, ?_⟩
  · intro i hi
    have hb : i ≤ 1 := by
      simp only [List.length_cons, List.length_nil] at hi
      omega
    interval_cases i
    · decide
    · decide
  · refine peak_fields_ok_when_span_positive [0, 60, 120, 180, 240, 600] (by decide) ?_
    intro i hi
    have hb : i ≤ 1 := by
      simp only [List.length_cons, List.length_nil] at hi
      omega
    interval_cases i
    · decide
    · decide

/-- C9 counterexample: with an empty commit sequence `get_code_stats`
returns immediately with zero counts and no histogram key at all, even
though a census of the same working tree would count one source file and
tally both extensions. -/
theorem census_skipped_for_empty_commits :
    get_code_stats [] (fun _ => none) pyTree = ⟨0, 0, none⟩ ∧
    (censusTree pyTree).1 = 1 ∧
    histCount (censusTree pyTree).2 ['.', 'p', 'y'] = 1 ∧
    histCount (censusTree pyTree).2 ['.', 'm', 'd'] = 1 :=
  ⟨by decide, by decide, by decide, by decide⟩

/-- C9 (amended): for every non-empty commit sequence the returned
histogram tallies, for each non-empty extension, exactly the files with
that extension among the files of the walked directories not containing
`.git`, and the file count is exactly the number of such files whose
extension is in the fixed allow-list; for the empty sequence the census
is skipped entirely. -/
theorem census_for_nonempty_commits (commits : List (List Char))
    (diffOut : Nat → Option (List (List Char)))
    (tree : List (List Char × List (List Char))) (hne : commits ≠ []) :
    ∃ hist, (get_code_stats commits diffOut tree).fileExtensions = some hist ∧
      (∀ ext, ext ≠ [] → histCount hist ext =
        ((talliedFiles tree).filter (fun f => decide (extOf f = ext))).length) ∧
      (get_code_stats commits diffOut tree).fileCount =
        ((talliedFiles tree).filter (fun f => decide (extOf f ∈ sourceExtensions))).length := by
  have hgc : get_code_stats commits diffOut tree =
      ⟨totalInsertedLines commits diffOut, (censusTree tree).1, some (censusTree tree).2⟩ := by
    unfold get_code_stats
    rw [if_neg hne]
  obtain ⟨h1, h2⟩ := censusTree_fold tree (0, [])
  have hc1 : (censusTree tree).1 = (talliedFiles tree).countP
      (fun f => decide (extOf f ≠ [] ∧ extOf f ∈ sourceExtensions)) := by
    simpa [censusTree] using h1
  have hc2 : ∀ k, k ≠ [] → histCount (censusTree tree).2 k =
      (talliedFiles tree).countP (fun f => decide (extOf f = k)) := by
    intro k hk
    simpa [censusTree, histCount] using h2 k hk
  refine ⟨(censusTree tree).2, by rw [hgc], ?_, ?_⟩
  · intro ext hext
    rw [hc2 ext hext, List.countP_eq_length_filter]
  · have hcong : (fun f => decide (extOf f ≠ [] ∧ extOf f ∈ sourceExtensions)) =
        (fun f => decide (extOf f ∈ sourceExtensions)) := by
      funext f
      by_cases hmem : extOf f ∈ sourceExtensions
      · have hne2 : extOf f ≠ [] := by
          intro hc
          rw [hc] at hmem
          revert hmem
          decide
        simp [hmem, hne2]
      · simp [hmem]
    rw [hgc]
    show (censusTree tree).1 = _
    rw [hc1, hcong, List.countP_eq_length_filter]

theorem census_for_nonempty_commits_witness :
    ([['d', 'e', 'a', 'd']] : List (List Char)) ≠ [] ∧
    (∃ hist, (get_code_stats [['d', 'e', 'a', 'd']] (fun _ => none) pyTree).fileExtensions =
        some hist ∧
      (∀ ext, ext ≠ [] → histCount hist ext =
        ((talliedFiles pyTree).filter (fun f => decide (extOf f = ext))).length) ∧
      (get_code_stats [['d', 'e', 'a', 'd']] (fun _ => none) pyTree).fileCount =
        ((talliedFiles pyTree).filter (fun f => decide (extOf f ∈ sourceExtensions))).length) :=
  ⟨by decide, census_for_nonempty_commits [['d', 'e', 'a', 'd']] (fun _ => none) pyTree
    (by decide)⟩

/-- C10: a commit-log line whose message slot itself contains the field
delimiter splits into more than 8 fields; the parser keeps only the text
of the message before its first delimiter occurrence and silently drops
the remainder. -/
theorem message_truncated_at_delimiter (hdr : List (List Char)) (m : List Char)
    (hlen : hdr.length = 7) (hnd : ∀ f ∈ hdr, '|' ∉ f) (hm : '|' ∈ m) :
    ∃ cr, parseLogLine (joinFields hdr m) = some cr ∧
      cr.message = m.takeWhile (fun x => x ≠ '|') ∧ cr.message ≠ m := by
  have hsplit : splitOnChar '|' (joinFields hdr m) = hdr ++ splitOnChar '|' m :=
    splitOnChar_join '|' hdr m hnd
  obtain ⟨s0, srest, hs⟩ : ∃ s0 srest, splitOnChar '|' m = s0 :: srest := by
    match hsm : splitOnChar '|' m with
    | [] => exact absurd hsm (splitOnChar_ne_nil '|' m)
    | a :: t => exact ⟨a, t, rfl⟩
  have hmsg : s0 = m.takeWhile (fun x => x ≠ '|') := by
    have hh := splitOnChar_head '|' m
    rw [hs] at hh
    simpa using hh
  simp only [parseLogLine]
  rw [hsplit, hs]
  rw [if_neg (by simp only [List.length_append, List.length_cons, hlen] ; omega)]
  refine ⟨_, rfl, ?_, ?_⟩
  · show (hdr ++ s0 :: srest).getD 7 [] = m.takeWhile (fun x => x ≠ '|')
    rw [List.getD_append_right _ _ _ _ (by omega), hlen]
    simpa using hmsg
  · show (hdr ++ s0 :: srest).getD 7 [] ≠ m
    rw [List.getD_append_right _ _ _ _ (by omega), hlen]
    simpa [hmsg] using takeWhile_ne_of_mem '|' m hm

theorem message_truncated_at_delimiter_witness :
    witHdr.length = 7 ∧ (∀ f ∈ witHdr, '|' ∉ f) ∧ '|' ∈ witMsg ∧
    (∃ cr, parseLogLine (joinFields witHdr witMsg) = some cr ∧
      cr.message = witMsg.takeWhile (fun x => x ≠ '|') ∧ cr.message ≠ witMsg) :=
  ⟨by decide, by decide, by decide,
    message_truncated_at_delimiter witHdr witMsg (by decide) (by decide) (by decide)⟩

end RepoAnalyzer
